import Mathlib

/-!
Verification of the RUM-alert reporting pipeline (`run_rum.py`): a shallow
embedding of the path normalizer, response shape resolver, report builder,
payload renderer and monitor orchestrator, together with theorems checking
the specified properties of each stage.

Numeric response times are modelled as rationals (`ℚ`); machine floats in the
source only ever carry values that are exact at the boundaries the theorems
examine.  Fallible code paths (Python exceptions) are modelled with `Except`.
-/

namespace RumAlerts

/-- The value domain of Python floats as this program observes them: an
exact finite value, NaN, or a signed infinity.  Finite values are exact
rationals; the source only compares and formats them at points where binary
rounding cannot flip the outcome, but NaN and the infinities are kept
distinct because `float("nan")`/`float("inf")` succeed and NaN survives the
report's comparisons. -/
inductive PyFloat where
  | fin : ℚ → PyFloat
  | nan : PyFloat
  | inf : PyFloat
  | ninf : PyFloat
deriving DecidableEq

/-- IEEE `<` as Python exposes it: every comparison against NaN is false. -/
def pyLt : PyFloat → PyFloat → Bool
  | .fin a, .fin b => decide (a < b)
  | .fin _, .inf => true
  | .fin _, _ => false
  | .nan, _ => false
  | .inf, _ => false
  | .ninf, .nan => false
  | .ninf, .ninf => false
  | .ninf, _ => true

/-- IEEE `<=`: false on every comparison against NaN. -/
def pyLe : PyFloat → PyFloat → Bool
  | .fin a, .fin b => decide (a ≤ b)
  | .fin _, .inf => true
  | .fin _, _ => false
  | .nan, _ => false
  | .inf, .inf => true
  | .inf, _ => false
  | .ninf, .nan => false
  | .ninf, _ => true

/-- `avg_ms / 1000.0` on the float domain. -/
def pyDiv1000 : PyFloat → PyFloat
  | .fin q => .fin (q / 1000)
  | v => v

def isFin : PyFloat → Bool
  | .fin _ => true
  | _ => false

/-- JSON values, as produced by parsing the monitor API response body.
Objects are association lists in document/insertion order, matching the
ordering semantics of Python dicts.  Numbers are float values: CPython's
`json` module accepts the bare `NaN`/`Infinity` literals as well. -/
inductive JVal where
  | null : JVal
  | bool : Bool → JVal
  | num : PyFloat → JVal
  | str : String → JVal
  | arr : List JVal → JVal
  | obj : List (String × JVal) → JVal

/-! ### Character-list utilities shared by the regex translations -/

/-- The backtick character (modelled by code point to keep it out of char syntax). -/
def backtickC : Char := Char.ofNat 96

/-- The single-quote character. -/
def squoteC : Char := Char.ofNat 39

/-- The backslash character. -/
def backslashC : Char := Char.ofNat 92

def slashC : Char := '/'

def isSlash (c : Char) : Bool := if c = slashC then true else false

def notSlash (c : Char) : Bool := if c = slashC then false else true

/-- Does `l` begin with the literal character pattern `pat`? -/
def startsWithL : List Char → List Char → Bool
  | [], _ => true
  | _ :: _, [] => false
  | p :: ps, c :: cs => if p = c then startsWithL ps cs else false

/-- Does `l` contain `pat` as a contiguous sublist? -/
def containsSub (pat : List Char) : List Char → Bool
  | [] => startsWithL pat []
  | c :: rest => startsWithL pat (c :: rest) || containsSub pat rest

/-- Does `l` end with the literal character pattern `pat`? -/
def endsWithL (pat l : List Char) : Bool := startsWithL pat.reverse l.reverse

/-! ### Path normalizer (`clean_path` in `run_rum.py`) -/

/-- The fixed head of the slot-games exclusion regex `/syn33/[^/]+/slots/games/[^/]+`. -/
def synPat : List Char := "/syn33/".toList

/-- The middle literal of the slot-games exclusion regex. -/
def slotsPat : List Char := "/slots/games/".toList

/-- Does the slot-games regex match at the head of `l`?  The two `[^/]+` groups
are deterministic here: the first must span exactly the characters up to the
next slash (the following literal starts with a slash), and the second only
needs one non-slash character to exist. -/
def slotMatchAt (l : List Char) : Bool :=
  if startsWithL synPat l then
    let rest := l.drop 7
    let tok := rest.takeWhile notSlash
    if tok.isEmpty then false
    else
      let rest2 := rest.drop tok.length
      if startsWithL slotsPat rest2 then
        match rest2.drop 13 with
        | [] => false
        | c :: _ => notSlash c
      else false
  else false

/-- `re.search` of the slot-games pattern: does it match at any position? -/
def slotSearch : List Char → Bool
  | [] => false
  | c :: rest => slotMatchAt (c :: rest) || slotSearch rest

/-- The environment head pattern `^/asia-ig7/`. -/
def asiaPat : List Char := "/asia-ig7/".toList

/-- The wildcard group head pattern `^/syn33/\*/`. -/
def synStarPat : List Char := "/syn33/*/".toList

/-- The wildcard games segment `/games/\*/` removed everywhere it occurs. -/
def gamesPat : List Char := "/games/*/".toList

/-- The wildcard `index.html` tail pattern `/\*/index\.html$`. -/
def idxPat : List Char := "/*/index.html".toList

/-- Strip `pat` from the head of `l` if present (an anchored `re.sub` with
empty replacement fires at most once). -/
def stripStartPat (pat l : List Char) : List Char :=
  if startsWithL pat l then l.drop pat.length else l

def newlineC : Char := Char.ofNat 10

/-- Does `re.sub(r"/\*/index\.html$", ...)` find a match?  Without
`MULTILINE`, `$` matches at the end of the string or just before a trailing
newline, so the pattern fires in either position (the two cannot co-occur,
as the suffix match ends in `l` while the other needs a final newline). -/
def idxMatches (l : List Char) : Bool :=
  endsWithL idxPat l || endsWithL (idxPat ++ [newlineC]) l

/-- Strip the thirteen-character `/*/index.html` tail, either at the very
end or just before a single trailing newline, exactly as the anchored
`re.sub` does. -/
def stripIdxSuffix (l : List Char) : List Char :=
  if endsWithL idxPat l then l.take (l.length - 13)
  else if endsWithL (idxPat ++ [newlineC]) l then l.take (l.length - 14) ++ [newlineC]
  else l

/-- Left-to-right, non-overlapping removal of every occurrence of the
nine-character pattern `/games/*/`, exactly as `re.sub` scans: after a match
the scan resumes past the matched span of the original string.  The fuel
argument is an upper bound on the remaining length, making the recursion
structural (and hence kernel-evaluable). -/
def removeGamesStarAux : ℕ → List Char → List Char
  | 0, l => l
  | _, [] => []
  | fuel + 1, c :: rest =>
    if startsWithL gamesPat (c :: rest) then removeGamesStarAux fuel (rest.drop 8)
    else c :: removeGamesStarAux fuel rest

def removeGamesStar (l : List Char) : List Char := removeGamesStarAux l.length l

/-- Collapse every run of repeated slashes to a single slash (`re.sub(r"/+", "/", ...)`). -/
def collapseSlash : List Char → List Char
  | [] => []
  | [c] => [c]
  | a :: b :: rest =>
    if a = slashC ∧ b = slashC then collapseSlash (b :: rest)
    else a :: collapseSlash (b :: rest)

/-- Python `str.strip("/")`: drop slashes from both ends. -/
def stripSlashes (l : List Char) : List Char :=
  ((l.dropWhile isSlash).reverse.dropWhile isSlash).reverse

/-- `clean_path` from `run_rum.py`: return the cleaned path, or the empty
string as the exclusion signal. -/
def clean_path (path : String) : String :=
  let l := path.toList
  if slotSearch l then ""
  else
    let l1 := stripStartPat asiaPat l
    let l2 := stripStartPat synStarPat l1
    let l3 := removeGamesStar l2
    let l4 := stripIdxSuffix l3
    String.mk (stripSlashes (collapseSlash l4))

/-- `_sanitize_backticks` from `run_rum.py`: replace every backtick with a
single quote so a whole line can be wrapped in backticks. -/
def sanitize_backticks (s : String) : String :=
  String.mk (s.toList.map (fun c => if c = backtickC then squoteC else c))

/-! ### Response shape resolver (tail of `fetch_rum_data` in `run_rum.py`) -/

/-- First-occurrence lookup in an association list; Python dict keys are
unique, so this is exactly `dict.__getitem__` / `dict.get`. -/
def jLookup (key : String) : List (String × JVal) → Option JVal
  | [] => none
  | (k, v) :: rest => if k = key then some v else jLookup key rest

def isArr : JVal → Bool
  | .arr _ => true
  | _ => false

/-- First value of the mapping that is a sequence, in insertion order
(`for v in data_field.values(): if isinstance(v, list): return v`). -/
def firstArr : List (String × JVal) → Option (List JVal)
  | [] => none
  | (_, v) :: rest =>
    match v with
    | .arr xs => some xs
    | _ => firstArr rest

/-- Python `==` comparison against the string literal `"data"`. -/
def isStrData : JVal → Bool
  | .str s => if s = "data" then true else false
  | _ => false

/-- The record-extraction tail of `fetch_rum_data`, applied to the parsed
response body `j`.  Faithful to Python semantics of `"data" not in j` and
`j["data"]` on each shape of `j`: membership on a non-container raises
`TypeError`, and indexing a list or a string by the string key raises too. -/
def extract_records : JVal → Except String (List JVal)
  | .obj m =>
    match jLookup "data" m with
    | none => .ok []
    | some d =>
      match d with
      | .arr xs => .ok xs
      | .obj dm =>
        (match jLookup "list" dm with
         | some (.arr xs) => .ok xs
         | _ =>
           match firstArr dm with
           | some xs => .ok xs
           | none => .ok [])
      | _ => .ok []
  | .arr xs =>
    if xs.any isStrData then .error "TypeError: list indices must be integers"
    else .ok []
  | .str s =>
    if containsSub "data".toList s.toList then .error "TypeError: string indices must be integers"
    else .ok []
  | _ => .error "TypeError: argument is not iterable"

/-- The shape-resolution rule as the spec words it (section 4.2): used only to
compare against `extract_records` on mapping inputs. -/
def spec_resolve (m : List (String × JVal)) : List JVal :=
  match jLookup "data" m with
  | none => []
  | some (.arr xs) => xs
  | some (.obj dm) =>
    (match jLookup "list" dm with
     | some (.arr xs) => xs
     | _ =>
       match (dm.map Prod.snd).find? isArr with
       | some (.arr xs) => xs
       | _ => [])
  | some _ => []

/-! ### Report builder (`format_monitor_lines` in `run_rum.py`) -/

/-- One display row: the tuple `(game, avg_s, avg_str, emoji)` built per
qualifying record. -/
structure Row where
  game : String
  secs : PyFloat
  avgStr : String
  emoji : String
deriving DecidableEq

def critEmoji : String := "🚨"

def warnEmoji : String := "⚠️"

/-- Python truthiness of a JSON value (`bool(0.0)` is false; NaN and the
infinities are truthy). -/
def jFalsy : JVal → Bool
  | .null => true
  | .bool b => !b
  | .num pf => if pf = .fin 0 then true else false
  | .str s => s.isEmpty
  | .arr xs => xs.isEmpty
  | .obj m => m.isEmpty

/-- `x or ""` in Python: keep `x` when truthy, else the empty string. -/
def pyOrEmptyStr (v : JVal) : JVal := if jFalsy v then .str "" else v

/-- `clean_path` as invoked on a JSON field value: its `isinstance` guard
turns every non-string into the exclusion signal. -/
def cleanPathJ : JVal → String
  | .str s => clean_path s
  | _ => ""

/-- The whitespace set of Python `str.strip()` and `float(str)`: the ASCII
controls and space plus the Unicode space separators and line/paragraph
separators Python's `str.isspace` recognizes. -/
def isPyWS (c : Char) : Bool :=
  if (9 ≤ c.toNat ∧ c.toNat ≤ 13) ∨ (28 ≤ c.toNat ∧ c.toNat ≤ 32)
    ∨ c.toNat = 133 ∨ c.toNat = 160 ∨ c.toNat = 5760
    ∨ (8192 ≤ c.toNat ∧ c.toNat ≤ 8202) ∨ c.toNat = 8232 ∨ c.toNat = 8233
    ∨ c.toNat = 8239 ∨ c.toNat = 8287 ∨ c.toNat = 12288
  then true else false

def stripWS (s : String) : String :=
  String.mk (((s.toList.dropWhile isPyWS).reverse.dropWhile isPyWS).reverse)

def isDigitC (c : Char) : Bool :=
  if 48 ≤ c.toNat ∧ c.toNat ≤ 57 then true else false

def toLowerC (c : Char) : Char :=
  if 65 ≤ c.toNat ∧ c.toNat ≤ 90 then Char.ofNat (c.toNat + 32) else c

/-- Parse a run of ASCII digits that may contain single underscores between
digits, as Python's numeric strings allow.  Returns the accumulated value,
the digit count, and the unconsumed remainder; an underscore not followed by
a digit is left unconsumed, which makes the whole `float()` parse fail at
top level just as in Python. -/
def parseDigitsU : ℕ → ℕ → List Char → ℕ × ℕ × List Char
  | acc, n, [] => (acc, n, [])
  | acc, n, c :: rest =>
    if isDigitC c then parseDigitsU (acc * 10 + (c.toNat - 48)) (n + 1) rest
    else if c = '_' then
      match rest with
      | d :: rest2 =>
        if isDigitC d then parseDigitsU (acc * 10 + (d.toNat - 48)) (n + 1) rest2
        else (acc, n, c :: rest)
      | [] => (acc, n, c :: rest)
    else (acc, n, c :: rest)

/-- The mantissa of a decimal float string: digits, an optional point, and
optional fractional digits — at least one digit in total. -/
def parseMantissa (l : List Char) : Option (ℚ × List Char) :=
  match parseDigitsU 0 0 l with
  | (ival, icnt, rest1) =>
    match rest1 with
    | c :: rest2 =>
      if c = '.' then
        match parseDigitsU 0 0 rest2 with
        | (fval, fcnt, rest3) =>
          if icnt = 0 ∧ fcnt = 0 then none
          else some ((ival : ℚ) + (fval : ℚ) / (10 : ℚ) ^ fcnt, rest3)
      else if icnt = 0 then none
      else some ((ival : ℚ), rest1)
    | [] => if icnt = 0 then none else some ((ival : ℚ), [])

/-- An optional exponent part `e`/`E`, sign, digits; the whole remainder
must be consumed. -/
def parseExpPart (mant : ℚ) : List Char → Option ℚ
  | [] => some mant
  | c :: rest =>
    if c = 'e' ∨ c = 'E' then
      let se : Bool × List Char :=
        match rest with
        | d :: rest2 =>
          if d = '-' then (true, rest2) else if d = '+' then (false, rest2) else (false, rest)
        | [] => (false, [])
      match parseDigitsU 0 0 se.2 with
      | (eval, ecnt, rest3) =>
        if ecnt = 0 ∨ rest3 ≠ [] then none
        else some (if se.1 then mant / (10 : ℚ) ^ eval else mant * (10 : ℚ) ^ eval)
    else none

/-- Python `float(str)`: strip whitespace, optional sign, then the words
`nan`, `inf` or `infinity` (case-insensitive) or a decimal number with
optional fraction and exponent, with underscores allowed between digits.
Finite values are taken exactly (the idealization used throughout);
non-ASCII digit forms are outside the model. -/
def parsePyFloat (s : String) : Option PyFloat :=
  let l0 := (stripWS s).toList
  let sl : Bool × List Char :=
    match l0 with
    | c :: rest => if c = '-' then (true, rest) else if c = '+' then (false, rest) else (false, l0)
    | [] => (false, [])
  let low := sl.2.map toLowerC
  if low = "nan".toList then some .nan
  else if low = "inf".toList ∨ low = "infinity".toList then
    some (if sl.1 then .ninf else .inf)
  else
    match parseMantissa sl.2 with
    | none => none
    | some (m, rest) =>
      match parseExpPart m rest with
      | none => none
      | some q => some (.fin (if sl.1 then -q else q))

/-- `float(item.get("average_response_time", 0))` under the enclosing
`try/except` that maps every coercion failure to `0.0`.  Note `float("nan")`
and `float("inf")` succeed and do not take the exception path. -/
def coerceFloat : JVal → PyFloat
  | .num pf => pf
  | .bool b => .fin (if b then 1 else 0)
  | .str s => (parsePyFloat s).getD (.fin 0)
  | _ => .fin 0

/-- Round to nearest with ties to even, the rounding of `f"{x:.2f}"`. -/
def roundHalfEven (q : ℚ) : ℤ :=
  let f : ℤ := Rat.floor q
  let r : ℚ := q - f
  if r < 1 / 2 then f
  else if r > 1 / 2 then f + 1
  else if f % 2 = 0 then f else f + 1

def fmt2aux (n : ℕ) : String :=
  Nat.repr (n / 100) ++ "." ++ (if n % 100 < 10 then "0" else "") ++ Nat.repr (n % 100)

/-- `f"{v:.2f}"`: a finite value rendered to exactly two decimal places;
the special values render as their float string forms. -/
def fmt2 : PyFloat → String
  | .fin q =>
    let n : ℤ := roundHalfEven (q * 100)
    if n < 0 then "-" ++ fmt2aux n.natAbs else fmt2aux n.natAbs
  | .nan => "nan"
  | .inf => "inf"
  | .ninf => "-inf"

/-- The per-record body of the `for item in rum_data` loop: `.ok none` when
the record is skipped, `.ok (some row)` when it contributes a row, and an
error when `item` is not a mapping (`item.get` raises `AttributeError`). -/
def buildRow : JVal → Except String (Option Row)
  | .obj m =>
    let rawName := pyOrEmptyStr ((jLookup "name" m).getD (.str ""))
    let path := cleanPathJ rawName
    if path.isEmpty then .ok none
    else if startsWithL "prod/".toList path.toList ∨ stripWS path = "*" ∨ stripWS path = ""
    then .ok none
    else
      let s := pyDiv1000 (coerceFloat ((jLookup "average_response_time" m).getD (.num (.fin 0))))
      if pyLt s (.fin 5) then .ok none
      else .ok (some ⟨sanitize_backticks path, s, fmt2 s ++ " sec",
        if pyLt (.fin 6) s then critEmoji else warnEmoji⟩)
  | _ => .error "AttributeError: no attribute get"

/-- The whole record loop, accumulating rows in input-encounter order; the
first non-mapping record aborts the loop with its exception, as in Python. -/
def rowsOf : List JVal → Except String (List Row)
  | [] => .ok []
  | item :: rest =>
    match buildRow item with
    | .error e => .error e
    | .ok r? =>
      match rowsOf rest with
      | .error e => .error e
      | .ok rs => .ok (match r? with | some r => r :: rs | none => rs)

/-- The key comparison `key(a) < key(b)` used by
`rows.sort(key=lambda x: x[1], reverse=True)`. -/
def pyLtRow (a b : Row) : Bool := pyLt a.secs b.secs

/-- The binary search of CPython's `binarysort`: locate the insertion slot
for `x` in `a[l:r]` by halving, moving right past elements not greater than
`x` (so `x` lands after its equals).  The fuel is an upper bound on `r - l`,
keeping the recursion structural. -/
def bsearchGo (x : Row) (a : List Row) : ℕ → ℕ → ℕ → ℕ
  | 0, l, _ => l
  | fuel + 1, l, r =>
    if l < r then
      if pyLtRow x (a.getD (l + (r - l) / 2) x) then bsearchGo x a fuel l (l + (r - l) / 2)
      else bsearchGo x a fuel (l + (r - l) / 2 + 1) r
    else l

/-- One `binarysort` insertion of `x` into the sorted front `s`. -/
def binInsert (x : Row) (s : List Row) : List Row :=
  s.take (bsearchGo x s s.length 0 s.length) ++
    x :: s.drop (bsearchGo x s s.length 0 s.length)

/-- `binarysort`: insert the pending elements one by one into the growing
sorted front. -/
def binarySortFrom : List Row → List Row → List Row
  | s, [] => s
  | s, x :: rest => binarySortFrom (binInsert x s) rest

/-- `count_run`, ascending case: extend while the next element is not less
than its predecessor; returns the run tail and the remainder. -/
def takeRunAsc : Row → List Row → List Row × List Row
  | _, [] => ([], [])
  | prev, x :: rest =>
    if pyLtRow x prev then ([], x :: rest)
    else
      let pr := takeRunAsc x rest
      (x :: pr.1, pr.2)

/-- `count_run`, strictly descending case: extend while the next element is
less than its predecessor. -/
def takeRunDesc : Row → List Row → List Row × List Row
  | _, [] => ([], [])
  | prev, x :: rest =>
    if pyLtRow x prev then
      let pr := takeRunDesc x rest
      (x :: pr.1, pr.2)
    else ([], x :: rest)

/-- CPython `list.sort` ascending, as run for fewer than 64 elements: find
the initial run (a strictly descending run is reversed), then binary-insert
every remaining element.  On keys over which `<` is a total order — all the
sortedness theorems below assume this — every stable sort agrees, so this is
also exactly what Timsort computes at any size; on NaN keys it is CPython's
bit-exact behavior for the short lists used concretely here. -/
def pySortAsc : List Row → List Row
  | [] => []
  | [x] => [x]
  | x0 :: x1 :: rest =>
    if pyLtRow x1 x0 then
      binarySortFrom (List.reverse (x0 :: x1 :: (takeRunDesc x1 rest).1)) (takeRunDesc x1 rest).2
    else
      binarySortFrom (x0 :: x1 :: (takeRunAsc x1 rest).1) (takeRunAsc x1 rest).2

/-- `rows.sort(key=lambda x: x[1], reverse=True)`: CPython implements
`reverse=True` by reversing the list before and after an ascending stable
sort. -/
def sortRows (rows : List Row) : List Row := (pySortAsc rows.reverse).reverse

def maxNat (l : List ℕ) : ℕ := l.foldl max 0

def spacesStr (n : ℕ) : String := String.mk (List.replicate n ' ')

def ljust (s : String) (w : ℕ) : String := s ++ spacesStr (w - s.toList.length)

def rjust (s : String) (w : ℕ) : String := spacesStr (w - s.toList.length) ++ s

/-- `game_w = max(20, max_game_len + 2)` over the report's rows. -/
def gameWidth (rows : List Row) : ℕ :=
  max 20 (maxNat (rows.map (fun r => r.game.toList.length)) + 2)

/-- `avg_w = max(8, max_avg_len)` over the report's rows. -/
def avgWidth (rows : List Row) : ℕ :=
  max 8 (maxNat (rows.map (fun r => r.avgStr.toList.length)))

def renderRowLine (gameW avgW : ℕ) (r : Row) : String :=
  ljust r.game gameW ++ rjust r.avgStr avgW ++ "   " ++ r.emoji

def headerLine (rows : List Row) : String :=
  ljust "Game" (gameWidth rows) ++ rjust "Avg" (avgWidth rows)

/-- The placeholder line returned for a report with no qualifying rows. -/
def noDataLine : String := "No data ≥ 5 sec"

/-- The aligned table lines for a sorted row list: header, blank line, then
each row followed by a blank line. -/
def renderLines (rows : List Row) : List String :=
  headerLine rows :: "" ::
    (rows.map (fun r => [renderRowLine (gameWidth rows) (avgWidth rows) r, ""])).flatten

/-- `format_monitor_lines` from `run_rum.py`. -/
def format_monitor_lines (rum_data : List JVal) : Except String (List String) :=
  match rowsOf rum_data with
  | .error e => .error e
  | .ok rows =>
    if rows.isEmpty then .ok [noDataLine]
    else .ok (renderLines (sortRows rows))

/-! ### Payload renderer (`send_monitor_block` in `run_rum.py`) -/

def dividerStr : String := String.mk (List.replicate 40 '-')

/-- A table line as it is appended to the message: sanitized, then wrapped in
single backticks. -/
def wrapLine (s : String) : String := "`" ++ sanitize_backticks s ++ "`"

def headerLines (name : String) : List String :=
  ["`📊 Site24x7 RUM Summary`", "", "`[" ++ sanitize_backticks name ++ "]`", ""]

/-- The single outbound message text assembled by `send_monitor_block`. -/
def buildMessage (name : String) (lines : List String) : String :=
  String.intercalate "\n" (headerLines name ++ lines.map wrapLine ++ ["`" ++ dividerStr ++ "`"])

/-- The payload renderer: the sequence of outbound text blocks that
`send_monitor_block` hands to the transport for one report. -/
def render_blocks (name : String) (rum_data : List JVal) : Except String (List String) :=
  match format_monitor_lines rum_data with
  | .error e => .error e
  | .ok lines => .ok [buildMessage name lines]

/-! ### Monitor pipeline orchestrator (`main` in `run_rum.py`) -/

/-- The two external collaborators of the per-monitor loop: `fetch` models
`fetch_rum_data` up to and including JSON parsing (an `Except` failure is any
raised fetch/parse error), and `tgSend` models `send_telegram_message_safe`
(an `Except` failure is its missing-credentials exception; the `Bool` is its
delivered/abandoned return value). -/
structure Oracle where
  fetch : String → Except String (List JVal)
  tgSend : String → Except String Bool

/-- `send_monitor_block` including its transport call. -/
def send_monitor_block (o : Oracle) (name : String) (rum_data : List JVal) : Except String Bool :=
  match format_monitor_lines rum_data with
  | .error e => .error e
  | .ok lines => o.tgSend (buildMessage name lines)

/-- The body of the `try` block run for one monitor. -/
def processMonitor (o : Oracle) (name rum_id : String) : Except String Bool :=
  match o.fetch rum_id with
  | .error e => .error e
  | .ok d => send_monitor_block o name d

/-- The error notice assembled in the `except` branch of `main`. -/
def errMessage (name e : String) : String :=
  "`📊 Site24x7 RUM Summary`\n`[" ++ sanitize_backticks name ++ "]`\n\n`❌ " ++
    sanitize_backticks e ++ "`"

/-- The best-effort send of the error notice: `true` when the inner call
returned (delivered or not), `false` when it raised and was swallowed. -/
def tgAttempt (o : Oracle) (name e : String) : Bool :=
  match o.tgSend (errMessage name e) with
  | .ok _ => true
  | .error _ => false

/-- One observable outcome per monitor. -/
inductive Ev where
  | report (name : String) (delivered : Bool)
  | errNote (name : String) (attempted : Bool)
deriving DecidableEq

def evName : Ev → String
  | .report n _ => n
  | .errNote n _ => n

/-- The `try/except/continue` body of the monitor loop for one monitor. -/
def runMonitor (o : Oracle) (p : String × String) : Ev :=
  match processMonitor o p.1 p.2 with
  | .ok b => .report p.1 b
  | .error e => .errNote p.1 (tgAttempt o p.1 e)

/-- The monitor loop of `main`: every configured monitor is processed in
configuration order, whatever the oracles do. -/
def mainLoop (o : Oracle) (monitors : List (String × String)) : List Ev :=
  monitors.map (runMonitor o)

/-! ### Severity classification -/

inductive Severity where
  | NONE : Severity
  | WARN : Severity
  | CRITICAL : Severity
deriving DecidableEq

/-- The classification the spec describes: strict thresholds at 6.0 and 5.0
(`a > b` on floats is `b < a`). -/
def specSeverity (s : PyFloat) : Severity :=
  if pyLt (.fin 6) s then .CRITICAL else if pyLt (.fin 5) s then .WARN else .NONE

/-- The classification the code applies to every emitted row
(`emoji = "🚨" if avg_s > 6 else "⚠️"`). -/
def codeSeverity (s : PyFloat) : Severity :=
  if pyLt (.fin 6) s then .CRITICAL else .WARN

def emojiOfSeverity : Severity → String
  | .CRITICAL => critEmoji
  | .WARN => warnEmoji
  | .NONE => ""

/-- The MarkdownV2 characters that are structurally significant inside a
code-span entity: the delimiter itself and the escape character. -/
def isMd2Sig (c : Char) : Bool :=
  if c = backtickC ∨ c = backslashC then true else false

/-- How a MarkdownV2 code span displays: its content shows as-is exactly when
it contains no unescaped structurally significant character; otherwise the
span is broken or altered and nothing displays verbatim. -/
def displayCodeSpan (content : String) : Option String :=
  if content.toList.any isMd2Sig then none else some content

/-- The caller-side post-filter on normalized paths: reject the exclusion
signal, aggregate rollups (`prod/` head) and bare wildcards (the two
`continue` guards of the record loop). -/
def postFilterOK (s : String) : Bool :=
  if s.isEmpty then false
  else if startsWithL "prod/".toList s.toList ∨ stripWS s = "*" ∨ stripWS s = ""
  then false else true

/-- Adjacent characters are never both slashes. -/
def noDS (a b : Char) : Prop := ¬(a = slashC ∧ b = slashC)

/-- The per-row content lines of a report, in their final (sorted) order. -/
def rowLines (d : List JVal) : List String :=
  match rowsOf d with
  | .ok rows =>
    (sortRows rows).map (renderRowLine (gameWidth (sortRows rows)) (avgWidth (sortRows rows)))
  | .error _ => []

/-- Total character count of the rendered row lines of a report. -/
def rowLinesTotal (d : List JVal) : ℕ :=
  ((rowLines d).map (fun s => s.toList.length)).sum

/-- How many outbound blocks the renderer hands to the transport. -/
def blocksCount (name : String) (d : List JVal) : ℕ :=
  match render_blocks name d with
  | .ok bs => bs.length
  | .error _ => 0

/-- A minimal monitor record carrying a name and a finite numeric response
time, used by the concrete instantiations below. -/
def sampleRec (name : String) (ms : ℚ) : JVal :=
  .obj [("name", .str name), ("average_response_time", .num (.fin ms))]

/-- A monitor record whose response time is a string, exercising the
`float(str)` coercion. -/
def sampleRecStr (name art : String) : JVal :=
  .obj [("name", .str name), ("average_response_time", .str art)]

/-- A one-record data set whose single rendered row is nonempty. -/
def c2data : List JVal := [sampleRec "plinko" 7000]

/-! ### Helper lemmas -/

theorem string_mk_toList (s : String) : String.mk s.toList = s := by
  cases s
  rfl

theorem firstArr_eq_find (dm : List (String × JVal)) :
    firstArr dm =
      (match (dm.map Prod.snd).find? isArr with
       | some (.arr xs) => some xs
       | _ => none) := by
  induction dm with
  | nil => rfl
  | cons kv rest ih =>
    obtain ⟨k, v⟩ := kv
    cases v with
    | arr xs => simp [firstArr, List.find?, isArr]
    | null => simpa [firstArr, List.find?, isArr] using ih
    | bool b => simpa [firstArr, List.find?, isArr] using ih
    | num q => simpa [firstArr, List.find?, isArr] using ih
    | str s => simpa [firstArr, List.find?, isArr] using ih
    | obj m => simpa [firstArr, List.find?, isArr] using ih

theorem jLookup_mem {k : String} {m : List (String × JVal)} {v : JVal}
    (h : jLookup k m = some v) : v ∈ m.map Prod.snd := by
  induction m with
  | nil => simp [jLookup] at h
  | cons kv rest ih =>
    obtain ⟨k', v'⟩ := kv
    rw [jLookup] at h
    split at h
    · simp only [Option.some.injEq] at h
      subst h
      simp
    · simpa using Or.inr (ih h)

/-- The resolver translated from the code agrees with the resolver as the
spec words it, on every mapping input. -/
theorem extract_obj_eq_spec (m : List (String × JVal)) :
    extract_records (.obj m) = .ok (spec_resolve m) := by
  cases hd : jLookup "data" m with
  | none => simp [extract_records, spec_resolve, hd]
  | some d =>
    cases d with
    | arr xs => simp [extract_records, spec_resolve, hd]
    | null => simp [extract_records, spec_resolve, hd]
    | bool b => simp [extract_records, spec_resolve, hd]
    | num q => simp [extract_records, spec_resolve, hd]
    | str s => simp [extract_records, spec_resolve, hd]
    | obj dm =>
      simp only [extract_records, spec_resolve, hd]
      rw [firstArr_eq_find dm]
      cases hl : jLookup "list" dm with
      | some v =>
        cases v with
        | arr xs => rfl
        | null => cases hf : (dm.map Prod.snd).find? isArr with
          | none => rfl
          | some w => cases w <;> rfl
        | bool b => cases hf : (dm.map Prod.snd).find? isArr with
          | none => rfl
          | some w => cases w <;> rfl
        | num q => cases hf : (dm.map Prod.snd).find? isArr with
          | none => rfl
          | some w => cases w <;> rfl
        | str s => cases hf : (dm.map Prod.snd).find? isArr with
          | none => rfl
          | some w => cases w <;> rfl
        | obj m2 => cases hf : (dm.map Prod.snd).find? isArr with
          | none => rfl
          | some w => cases w <;> rfl
      | none =>
        cases hf : (dm.map Prod.snd).find? isArr with
        | none => rfl
        | some w => cases w <;> rfl

/-- Every row the loop body emits survived the `avg_s < 5.0` skip — its
seconds do not compare below 5 (NaN seconds pass too) — and carries the
emoji the code computes from its seconds. -/
theorem buildRow_ok_some {item : JVal} {r : Row} (h : buildRow item = .ok (some r)) :
    pyLt r.secs (.fin 5) = false
    ∧ r.emoji = (if pyLt (.fin 6) r.secs then critEmoji else warnEmoji) := by
  cases item with
  | obj m =>
    simp only [buildRow] at h
    split at h
    · simp at h
    · split at h
      · simp at h
      · split at h
        · simp at h
        · rename_i hlt
          simp only [Except.ok.injEq, Option.some.injEq] at h
          subst h
          exact ⟨by simpa using hlt, rfl⟩
  | null => simp [buildRow] at h
  | bool b => simp [buildRow] at h
  | num q => simp [buildRow] at h
  | str s => simp [buildRow] at h
  | arr xs => simp [buildRow] at h

/-- Every row of a successful `rowsOf` run comes from some record via the
loop body. -/
theorem mem_rowsOf : ∀ {d : List JVal} {rows : List Row} {r : Row},
    rowsOf d = .ok rows → r ∈ rows → ∃ item, buildRow item = .ok (some r) := by
  intro d
  induction d with
  | nil =>
    intro rows r h hr
    simp only [rowsOf, Except.ok.injEq] at h
    subst h
    simp at hr
  | cons item rest ih =>
    intro rows r h hr
    rw [rowsOf] at h
    cases hb : buildRow item with
    | error e => rw [hb] at h; simp at h
    | ok r? =>
      rw [hb] at h
      cases hrest : rowsOf rest with
      | error e => rw [hrest] at h; simp at h
      | ok rs =>
        rw [hrest] at h
        cases r? with
        | none =>
          simp only [Except.ok.injEq] at h
          subst h
          exact ih hrest hr
        | some r0 =>
          simp only [Except.ok.injEq] at h
          subst h
          rcases List.mem_cons.1 hr with h0 | hmem
          · subst h0
            exact ⟨item, hb⟩
          · exact ih hrest hmem

theorem pyLt_self (v : PyFloat) : pyLt v v = false := by
  cases v <;> simp [pyLt]

theorem pyLt_asymm {a b : PyFloat} (h : pyLt a b = true) : pyLt b a = false := by
  cases a with
  | fin qa =>
    cases b with
    | fin qb =>
      simp only [pyLt, decide_eq_true_eq] at h
      simp only [pyLt, decide_eq_false_iff_not]
      exact not_lt.2 (le_of_lt h)
    | nan => simp [pyLt] at h
    | inf => simp [pyLt]
    | ninf => simp [pyLt] at h
  | nan => simp [pyLt] at h
  | inf => simp [pyLt] at h
  | ninf =>
    cases b with
    | fin qb => simp [pyLt]
    | nan => simp [pyLt] at h
    | inf => simp [pyLt]
    | ninf => simp [pyLt] at h

theorem pyLt_fin_iff {a b : ℚ} : pyLt (.fin a) (.fin b) = true ↔ a < b := by
  simp [pyLt]

theorem pyLt_fin_false_iff {a b : ℚ} : pyLt (.fin a) (.fin b) = false ↔ b ≤ a := by
  simp [pyLt, not_lt]

theorem pyLe_fin_iff {a b : ℚ} : pyLe (.fin a) (.fin b) = true ↔ a ≤ b := by
  simp [pyLe]

/-- What CPython's `binarysort` binary search returns: every slot left of the
result holds an element not greater than `x`, every slot from the result on
holds an element strictly greater — provided the searched front is sorted
with totally ordered (finite) keys. -/
theorem bsearchGo_spec (x : Row) (s : List Row)
    (hsort : s.Pairwise (fun a b => pyLtRow b a = false))
    (hfx : ∃ qx, x.secs = .fin qx)
    (hfs : ∀ y ∈ s, ∃ q, y.secs = .fin q) :
    ∀ (fuel l r : ℕ), l ≤ r → r ≤ s.length → r - l ≤ fuel →
      (∀ i, i < l → pyLtRow x (s.getD i x) = false) →
      (∀ i, r ≤ i → i < s.length → pyLtRow x (s.getD i x) = true) →
      bsearchGo x s fuel l r ≤ s.length
        ∧ (∀ i, i < bsearchGo x s fuel l r → pyLtRow x (s.getD i x) = false)
        ∧ (∀ i, bsearchGo x s fuel l r ≤ i → i < s.length →
            pyLtRow x (s.getD i x) = true) := by
  intro fuel
  induction fuel with
  | zero =>
    intro l r hlr hrlen hf hlow hhigh
    have hrl : r = l := by omega
    subst hrl
    exact ⟨hrlen, hlow, hhigh⟩
  | succ f ih =>
    intro l r hlr hrlen hf hlow hhigh
    simp only [bsearchGo]
    by_cases hltr : l < r
    · rw [if_pos hltr]
      have hplt : l + (r - l) / 2 < r := by omega
      have hple : l ≤ l + (r - l) / 2 := by omega
      have hplen : l + (r - l) / 2 < s.length := lt_of_lt_of_le hplt hrlen
      have hpmem : s.getD (l + (r - l) / 2) x ∈ s := by
        rw [List.getD_eq_getElem s x hplen]
        exact List.getElem_mem hplen
      by_cases hxp : pyLtRow x (s.getD (l + (r - l) / 2) x) = true
      · rw [if_pos hxp]
        refine ih l (l + (r - l) / 2) hple (le_of_lt hplen) (by omega) hlow ?_
        intro i hpi hilen
        rcases eq_or_lt_of_le hpi with heq | hlt'
        · rw [← heq]
          exact hxp
        · have hrel : pyLtRow (s.getD i x) (s.getD (l + (r - l) / 2) x) = false := by
            rw [List.getD_eq_getElem s x hplen, List.getD_eq_getElem s x hilen]
            exact List.pairwise_iff_getElem.1 hsort _ _ hplen hilen hlt'
          obtain ⟨qx, hqx⟩ := hfx
          obtain ⟨qp, hqp⟩ := hfs _ hpmem
          obtain ⟨qi, hqi⟩ := hfs (s.getD i x) (by
            rw [List.getD_eq_getElem s x hilen]
            exact List.getElem_mem hilen)
          simp only [pyLtRow, hqx, hqp, hqi, pyLt_fin_iff, pyLt_fin_false_iff] at hxp hrel ⊢
          linarith
      · have hxpf : pyLtRow x (s.getD (l + (r - l) / 2) x) = false := by
          cases hh : pyLtRow x (s.getD (l + (r - l) / 2) x)
          · rfl
          · exact absurd hh hxp
        rw [if_neg hxp]
        refine ih (l + (r - l) / 2 + 1) r (by omega) hrlen (by omega) ?_ hhigh
        intro i hip1
        rcases lt_or_ge i l with hil | hge
        · exact hlow i hil
        · rcases eq_or_lt_of_le (show i ≤ l + (r - l) / 2 by omega) with heq | hlt'
          · rw [heq]
            exact hxpf
          · have hilen : i < s.length := by omega
            have hrel : pyLtRow (s.getD (l + (r - l) / 2) x) (s.getD i x) = false := by
              rw [List.getD_eq_getElem s x hilen, List.getD_eq_getElem s x hplen]
              exact List.pairwise_iff_getElem.1 hsort _ _ hilen hplen hlt'
            obtain ⟨qx, hqx⟩ := hfx
            obtain ⟨qp, hqp⟩ := hfs _ hpmem
            obtain ⟨qi, hqi⟩ := hfs (s.getD i x) (by
              rw [List.getD_eq_getElem s x hilen]
              exact List.getElem_mem hilen)
            simp only [pyLtRow, hqx, hqp, hqi, pyLt_fin_false_iff] at hxpf hrel ⊢
            linarith
    · rw [if_neg hltr]
      have hrl : r = l := by omega
      exact ⟨le_trans hlr (hrl ▸ hrlen), hlow, fun i hi hilen => hhigh i (by omega) hilen⟩

/-- One binary insertion into a sorted finite-keyed front: the result is
sorted, keeps the front as a sublist (so existing pairs survive), places `x`
after any element it does not exceed, and adds exactly `x`. -/
theorem binInsert_spec (x : Row) (s : List Row)
    (hsort : s.Pairwise (fun a b => pyLtRow b a = false))
    (hfx : ∃ qx, x.secs = .fin qx)
    (hfs : ∀ y ∈ s, ∃ q, y.secs = .fin q) :
    (binInsert x s).Pairwise (fun a b => pyLtRow b a = false)
    ∧ s.Sublist (binInsert x s)
    ∧ (∀ a : Row, a ∈ s → pyLtRow x a = false → [a, x].Sublist (binInsert x s))
    ∧ x ∈ binInsert x s
    ∧ (∀ y ∈ binInsert x s, y = x ∨ y ∈ s) := by
  obtain ⟨hpos, hlo, hhi⟩ := bsearchGo_spec x s hsort hfx hfs s.length 0 s.length
    (by omega) (le_refl _) (by omega)
    (fun i hi => absurd hi (by omega))
    (fun i h1 h2 => absurd (lt_of_le_of_lt h1 h2) (lt_irrefl _))
  have htake : ∀ a ∈ s.take (bsearchGo x s s.length 0 s.length),
      ∃ i, i < bsearchGo x s s.length 0 s.length ∧ i < s.length ∧ s.getD i x = a := by
    intro a ha
    obtain ⟨i, hi, hgi⟩ := List.mem_iff_getElem.1 ha
    rw [List.length_take] at hi
    have hip : i < bsearchGo x s s.length 0 s.length := lt_of_lt_of_le hi (min_le_left _ _)
    have hil : i < s.length := lt_of_lt_of_le hi (min_le_right _ _)
    refine ⟨i, hip, hil, ?_⟩
    rw [List.getD_eq_getElem s x hil, ← List.getElem_take s]
    exact hgi
  have hdropP : ∀ b ∈ s.drop (bsearchGo x s s.length 0 s.length),
      ∃ j, bsearchGo x s s.length 0 s.length + j < s.length
        ∧ s.getD (bsearchGo x s s.length 0 s.length + j) x = b := by
    intro b hb
    obtain ⟨j, hj, hgj⟩ := List.mem_iff_getElem.1 hb
    rw [List.length_drop] at hj
    have hjl : bsearchGo x s s.length 0 s.length + j < s.length := by omega
    refine ⟨j, hjl, ?_⟩
    rw [List.getD_eq_getElem s x hjl]
    rw [List.getElem_drop] at hgj
    exact hgj
  refine ⟨?_, ?_, ?_, ?_, ?_⟩
  · show (s.take _ ++ x :: s.drop _).Pairwise _
    rw [List.pairwise_append]
    refine ⟨List.Pairwise.sublist (List.take_sublist _ _) hsort, ?_, ?_⟩
    · rw [List.pairwise_cons]
      refine ⟨?_, List.Pairwise.sublist (List.drop_sublist _ _) hsort⟩
      intro z hz
      obtain ⟨j, hjl, hgj⟩ := hdropP z hz
      have hx := hhi _ (by omega) hjl
      rw [hgj] at hx
      simp only [pyLtRow] at hx ⊢
      exact pyLt_asymm hx
    · intro a ha b hb
      rcases List.mem_cons.1 hb with rfl | hbd
      · obtain ⟨i, hip, hil, hgi⟩ := htake a ha
        have := hlo i hip
        rw [hgi] at this
        exact this
      · obtain ⟨i, hip, hil, hgi⟩ := htake a ha
        obtain ⟨j, hjl, hgj⟩ := hdropP b hbd
        have hij : i < bsearchGo x s s.length 0 s.length + j := by omega
        have := List.pairwise_iff_getElem.1 hsort i _ hil hjl hij
        rw [← List.getD_eq_getElem s x hil, ← List.getD_eq_getElem s x hjl, hgi, hgj] at this
        exact this
  · show s.Sublist (s.take _ ++ x :: s.drop _)
    conv_lhs => rw [← List.take_append_drop (bsearchGo x s s.length 0 s.length) s]
    exact List.Sublist.append_left (List.sublist_cons_self x _) _
  · intro a ha hxa
    obtain ⟨i, hil, hgi⟩ := List.mem_iff_getElem.1 ha
    have hipos : i < bsearchGo x s s.length 0 s.length := by
      by_contra hge
      have hx := hhi i (by omega) hil
      rw [List.getD_eq_getElem s x hil, hgi] at hx
      rw [hx] at hxa
      exact Bool.noConfusion hxa
    have hmemtake : a ∈ s.take (bsearchGo x s s.length 0 s.length) := by
      rw [List.mem_iff_getElem]
      refine ⟨i, ?_, ?_⟩
      · simp only [List.length_take]
        omega
      · rw [List.getElem_take]
        exact hgi
    obtain ⟨t₁, t₂, hsplit⟩ := List.append_of_mem hmemtake
    show [a, x].Sublist (s.take _ ++ x :: s.drop _)
    rw [hsplit, List.append_assoc]
    refine List.sublist_append_of_sublist_right ?_
    show [a, x].Sublist (a :: (t₂ ++ x :: s.drop _))
    exact List.Sublist.cons₂ a (List.singleton_sublist.2 (by simp))
  · show x ∈ s.take _ ++ x :: s.drop _
    simp
  · intro y hy
    rcases List.mem_append.1 hy with h | h
    · exact Or.inr ((List.take_sublist _ _).subset h)
    · rcases List.mem_cons.1 h with rfl | h2
      · exact Or.inl rfl
      · exact Or.inr ((List.drop_sublist _ _).subset h2)

theorem pair_mem_sublist {α : Type} {a b : α} {l₁ l₂ : List α}
    (ha : a ∈ l₁) (hb : b ∈ l₂) : [a, b].Sublist (l₁ ++ l₂) := by
  obtain ⟨s₁, t₁, rfl⟩ := List.append_of_mem ha
  rw [List.append_assoc]
  refine List.sublist_append_of_sublist_right ?_
  show [a, b].Sublist (a :: (t₁ ++ l₂))
  exact List.Sublist.cons₂ a (List.singleton_sublist.2 (by simp [hb]))

theorem pair_sublist_append_cases {α : Type} {a b : α} {l₁ l₂ : List α}
    (h : [a, b].Sublist (l₁ ++ l₂)) :
    [a, b].Sublist l₁ ∨ [a, b].Sublist l₂ ∨ (a ∈ l₁ ∧ b ∈ l₂) := by
  obtain ⟨u, v, huv, hu, hv⟩ := List.sublist_append_iff.1 h
  cases u with
  | nil =>
    rw [List.nil_append] at huv
    rw [← huv] at hv
    exact Or.inr (Or.inl hv)
  | cons c u' =>
    cases u' with
    | nil =>
      simp only [List.cons_append, List.nil_append, List.cons.injEq] at huv
      obtain ⟨rfl, rfl⟩ := huv
      refine Or.inr (Or.inr ⟨?_, ?_⟩)
      · exact hu.subset (by simp)
      · exact hv.subset (by simp)
    | cons d u'' =>
      simp only [List.cons_append, List.cons.injEq] at huv
      obtain ⟨rfl, rfl, huv2⟩ := huv
      have hnil : u'' = [] ∧ v = [] := by
        constructor
        · cases u'' with
          | nil => rfl
          | cons _ _ => simp at huv2
        · cases u'' with
          | nil => simpa using huv2.symm
          | cons _ _ => simp at huv2
      rw [hnil.1] at hu
      exact Or.inl hu

theorem rel_trans_fin {a b c : Row}
    (hfa : ∃ q, a.secs = .fin q) (hfb : ∃ q, b.secs = .fin q) (hfc : ∃ q, c.secs = .fin q)
    (h1 : pyLtRow b a = false) (h2 : pyLtRow c b = false) : pyLtRow c a = false := by
  obtain ⟨qa, ha⟩ := hfa
  obtain ⟨qb, hb⟩ := hfb
  obtain ⟨qc, hc⟩ := hfc
  simp only [pyLtRow, ha, hb, hc, pyLt_fin_false_iff] at h1 h2 ⊢
  linarith

theorem strict_trans_fin {a b c : Row}
    (hfa : ∃ q, a.secs = .fin q) (hfb : ∃ q, b.secs = .fin q) (hfc : ∃ q, c.secs = .fin q)
    (h1 : pyLtRow b a = true) (h2 : pyLtRow c b = true) : pyLtRow c a = true := by
  obtain ⟨qa, ha⟩ := hfa
  obtain ⟨qb, hb⟩ := hfb
  obtain ⟨qc, hc⟩ := hfc
  simp only [pyLtRow, ha, hb, hc, pyLt_fin_iff] at h1 h2 ⊢
  linarith

theorem chain'_asc_pairwise :
    ∀ (l : List Row), (∀ y ∈ l, ∃ q, y.secs = .fin q) →
      List.Chain' (fun a b => pyLtRow b a = false) l →
      l.Pairwise (fun a b => pyLtRow b a = false) := by
  intro l
  induction l with
  | nil => intro _ _; exact List.Pairwise.nil
  | cons x t ih =>
    intro hfin hch
    have hft : ∀ y ∈ t, ∃ q, y.secs = .fin q := fun y hy => hfin y (by simp [hy])
    have hpt := ih hft hch.tail
    rw [List.pairwise_cons]
    refine ⟨?_, hpt⟩
    cases t with
    | nil => simp
    | cons z t' =>
      intro y hy
      have hxz : pyLtRow z x = false := (List.chain'_cons.1 hch).1
      rcases List.mem_cons.1 hy with rfl | hyt'
      · exact hxz
      · have hzy : pyLtRow y z = false := (List.pairwise_cons.1 hpt).1 y hyt'
        exact rel_trans_fin (hfin x (by simp)) (hfin z (by simp)) (hfin y (by simp [hyt'])) hxz hzy

theorem chain'_desc_pairwise :
    ∀ (l : List Row), (∀ y ∈ l, ∃ q, y.secs = .fin q) →
      List.Chain' (fun a b => pyLtRow b a = true) l →
      l.Pairwise (fun a b => pyLtRow b a = true) := by
  intro l
  induction l with
  | nil => intro _ _; exact List.Pairwise.nil
  | cons x t ih =>
    intro hfin hch
    have hft : ∀ y ∈ t, ∃ q, y.secs = .fin q := fun y hy => hfin y (by simp [hy])
    have hpt := ih hft hch.tail
    rw [List.pairwise_cons]
    refine ⟨?_, hpt⟩
    cases t with
    | nil => simp
    | cons z t' =>
      intro y hy
      have hxz : pyLtRow z x = true := (List.chain'_cons.1 hch).1
      rcases List.mem_cons.1 hy with rfl | hyt'
      · exact hxz
      · have hzy : pyLtRow y z = true := (List.pairwise_cons.1 hpt).1 y hyt'
        exact strict_trans_fin (hfin x (by simp)) (hfin z (by simp)) (hfin y (by simp [hyt'])) hxz hzy

/-- The binary-insertion phase: sortedness of the growing front is kept, no
element is lost or invented, and every input pair with equal keys keeps its
order — insertions land after equal keys. -/
theorem binarySortFrom_correct :
    ∀ (rest s : List Row),
      s.Pairwise (fun a b => pyLtRow b a = false) →
      (∀ y ∈ s, ∃ q, y.secs = .fin q) →
      (∀ y ∈ rest, ∃ q, y.secs = .fin q) →
      ((binarySortFrom s rest).Pairwise (fun a b => pyLtRow b a = false)
        ∧ (∀ a b : Row, [a, b].Sublist (s ++ rest) → a.secs = b.secs →
            [a, b].Sublist (binarySortFrom s rest))
        ∧ (∀ y ∈ binarySortFrom s rest, y ∈ s ∨ y ∈ rest)) := by
  intro rest
  induction rest with
  | nil =>
    intro s hsort hfs _
    refine ⟨hsort, ?_, fun y hy => Or.inl hy⟩
    intro a b hab _
    rw [List.append_nil] at hab
    exact hab
  | cons x rest' ih =>
    intro s hsort hfs hfr
    have hfx : ∃ qx, x.secs = .fin qx := hfr x (by simp)
    have hfr' : ∀ y ∈ rest', ∃ q, y.secs = .fin q := fun y hy => hfr y (by simp [hy])
    obtain ⟨hPW, hsub, hnew, hxmem, hmem⟩ := binInsert_spec x s hsort hfx hfs
    have hfs' : ∀ y ∈ binInsert x s, ∃ q, y.secs = .fin q := by
      intro y hy
      rcases hmem y hy with rfl | hys
      · exact hfx
      · exact hfs y hys
    obtain ⟨ih1, ih2, ih3⟩ := ih (binInsert x s) hPW hfs' hfr'
    refine ⟨ih1, ?_, ?_⟩
    · intro a b hab heq
      rcases pair_sublist_append_cases hab with h1 | h1 | ⟨ha, hb⟩
      · exact ih2 a b ((h1.trans hsub).trans (List.sublist_append_left _ _)) heq
      · rcases List.sublist_cons_iff.1 h1 with h2 | ⟨rr, hrr, hrrsub⟩
        · exact ih2 a b (List.sublist_append_of_sublist_right h2) heq
        · simp only [List.cons.injEq] at hrr
          obtain ⟨rfl, rfl⟩ := hrr
          have hbmem : b ∈ rest' := by
            have := hrrsub.subset
            exact this (by simp)
          exact ih2 a b (pair_mem_sublist hxmem hbmem) heq
      · rcases List.mem_cons.1 hb with rfl | hbr
        · have hxa : pyLtRow b a = false := by
            simp only [pyLtRow]
            rw [heq]
            exact pyLt_self _
          have hpair := hnew a ha hxa
          exact ih2 a b (hpair.trans (List.sublist_append_left _ _)) heq
        · exact ih2 a b (pair_mem_sublist (hsub.subset ha) hbr) heq
    · intro y hy
      rcases ih3 y hy with h | h
      · rcases hmem y h with rfl | hys
        · exact Or.inr (by simp)
        · exact Or.inl hys
      · exact Or.inr (by simp [h])

theorem takeRunAsc_spec :
    ∀ (rest : List Row) (prev : Row),
      (takeRunAsc prev rest).1 ++ (takeRunAsc prev rest).2 = rest
      ∧ List.Chain' (fun a b => pyLtRow b a = false) (prev :: (takeRunAsc prev rest).1) := by
  intro rest
  induction rest with
  | nil => intro prev; exact ⟨rfl, List.chain'_singleton _⟩
  | cons x rest' ih =>
    intro prev
    by_cases hx : pyLtRow x prev = true
    · simp only [takeRunAsc, hx, if_true]
      exact ⟨rfl, List.chain'_singleton _⟩
    · have hx' : pyLtRow x prev = false := by
        cases h : pyLtRow x prev
        · rfl
        · exact absurd h hx
      simp only [takeRunAsc, hx', Bool.false_eq_true, if_false]
      obtain ⟨ihapp, ihch⟩ := ih x
      refine ⟨by simpa using ihapp, ?_⟩
      rw [List.chain'_cons]
      exact ⟨hx', ihch⟩

theorem takeRunDesc_spec :
    ∀ (rest : List Row) (prev : Row),
      (takeRunDesc prev rest).1 ++ (takeRunDesc prev rest).2 = rest
      ∧ List.Chain' (fun a b => pyLtRow b a = true) (prev :: (takeRunDesc prev rest).1) := by
  intro rest
  induction rest with
  | nil => intro prev; exact ⟨rfl, List.chain'_singleton _⟩
  | cons x rest' ih =>
    intro prev
    by_cases hx : pyLtRow x prev = true
    · simp only [takeRunDesc, hx, if_true]
      obtain ⟨ihapp, ihch⟩ := ih x
      refine ⟨by simpa using ihapp, ?_⟩
      rw [List.chain'_cons]
      exact ⟨hx, ihch⟩
    · have hx' : pyLtRow x prev = false := by
        cases h : pyLtRow x prev
        · rfl
        · exact absurd h hx
      simp only [takeRunDesc, hx', Bool.false_eq_true, if_false]
      exact ⟨rfl, List.chain'_singleton _⟩

/-- CPython's ascending sort: sorted output, stability for equal finite
keys, and no invented elements — under the theorems' finite-key hypothesis. -/
theorem pySortAsc_correct :
    ∀ (l : List Row), (∀ y ∈ l, ∃ q, y.secs = .fin q) →
      (pySortAsc l).Pairwise (fun a b => pyLtRow b a = false)
      ∧ (∀ a b : Row, [a, b].Sublist l → a.secs = b.secs → [a, b].Sublist (pySortAsc l))
      ∧ (∀ y ∈ pySortAsc l, y ∈ l) := by
  intro l hfin
  match l with
  | [] =>
    refine ⟨List.Pairwise.nil, ?_, by simp [pySortAsc]⟩
    intro a b h _
    simpa using h
  | [x] =>
    refine ⟨List.pairwise_singleton _ _, ?_, by simp [pySortAsc]⟩
    intro a b h _
    have := h.length_le
    simp at this
  | x0 :: x1 :: rest =>
    have hf0 : ∃ q, x0.secs = .fin q := hfin x0 (by simp)
    have hf1 : ∃ q, x1.secs = .fin q := hfin x1 (by simp)
    by_cases hd : pyLtRow x1 x0 = true
    · obtain ⟨happ, hch⟩ := takeRunDesc_spec rest x1
      have hrunfin : ∀ y ∈ x0 :: x1 :: (takeRunDesc x1 rest).1, ∃ q, y.secs = .fin q := by
        intro y hy
        rcases List.mem_cons.1 hy with rfl | hy2
        · exact hf0
        rcases List.mem_cons.1 hy2 with rfl | hy3
        · exact hf1
        · refine hfin y ?_
          have : y ∈ rest := by
            rw [← happ]
            exact List.mem_append.2 (Or.inl hy3)
          simp [this]
      have hremfin : ∀ y ∈ (takeRunDesc x1 rest).2, ∃ q, y.secs = .fin q := by
        intro y hy
        refine hfin y ?_
        have : y ∈ rest := by
          rw [← happ]
          exact List.mem_append.2 (Or.inr hy)
        simp [this]
      have hpwdesc : (x0 :: x1 :: (takeRunDesc x1 rest).1).Pairwise
          (fun a b => pyLtRow b a = true) :=
        chain'_desc_pairwise _ hrunfin (List.chain'_cons.2 ⟨hd, hch⟩)
      have hsortrev : (List.reverse (x0 :: x1 :: (takeRunDesc x1 rest).1)).Pairwise
          (fun a b => pyLtRow b a = false) := by
        rw [List.pairwise_reverse]
        exact hpwdesc.imp (fun hab => pyLt_asymm hab)
      have hrevfin : ∀ y ∈ List.reverse (x0 :: x1 :: (takeRunDesc x1 rest).1),
          ∃ q, y.secs = .fin q := by
        intro y hy
        exact hrunfin y (List.mem_reverse.1 hy)
      obtain ⟨m1, m2, m3⟩ := binarySortFrom_correct (takeRunDesc x1 rest).2
        (List.reverse (x0 :: x1 :: (takeRunDesc x1 rest).1)) hsortrev hrevfin hremfin
      have hunf : pySortAsc (x0 :: x1 :: rest)
          = binarySortFrom (List.reverse (x0 :: x1 :: (takeRunDesc x1 rest).1))
              (takeRunDesc x1 rest).2 := by
        simp [pySortAsc, hd]
      rw [hunf]
      refine ⟨m1, ?_, ?_⟩
      · intro a b hab heq
        have hab' : [a, b].Sublist
            ((x0 :: x1 :: (takeRunDesc x1 rest).1) ++ (takeRunDesc x1 rest).2) := by
          rw [List.cons_append, List.cons_append, happ]
          exact hab
        rcases pair_sublist_append_cases hab' with h1 | h1 | ⟨ha, hb⟩
        · exfalso
          have hrel : pyLtRow b a = true :=
            (List.pairwise_cons.1 (List.Pairwise.sublist h1 hpwdesc)).1 b (by simp)
          simp only [pyLtRow] at hrel
          rw [← heq, pyLt_self] at hrel
          exact Bool.noConfusion hrel
        · exact m2 a b (List.sublist_append_of_sublist_right h1) heq
        · exact m2 a b (pair_mem_sublist (List.mem_reverse.2 ha) hb) heq
      · intro y hy
        rcases m3 y hy with h | h
        · have h2 := List.mem_reverse.1 h
          rcases List.mem_cons.1 h2 with rfl | h3
          · simp
          rcases List.mem_cons.1 h3 with rfl | h4
          · simp
          · have : y ∈ rest := by
              rw [← happ]
              exact List.mem_append.2 (Or.inl h4)
            simp [this]
        · have : y ∈ rest := by
            rw [← happ]
            exact List.mem_append.2 (Or.inr h)
          simp [this]
    · have hd' : pyLtRow x1 x0 = false := by
        cases h : pyLtRow x1 x0
        · rfl
        · exact absurd h hd
      obtain ⟨happ, hch⟩ := takeRunAsc_spec rest x1
      have hrunfin : ∀ y ∈ x0 :: x1 :: (takeRunAsc x1 rest).1, ∃ q, y.secs = .fin q := by
        intro y hy
        rcases List.mem_cons.1 hy with rfl | hy2
        · exact hf0
        rcases List.mem_cons.1 hy2 with rfl | hy3
        · exact hf1
        · refine hfin y ?_
          have : y ∈ rest := by
            rw [← happ]
            exact List.mem_append.2 (Or.inl hy3)
          simp [this]
      have hremfin : ∀ y ∈ (takeRunAsc x1 rest).2, ∃ q, y.secs = .fin q := by
        intro y hy
        refine hfin y ?_
        have : y ∈ rest := by
          rw [← happ]
          exact List.mem_append.2 (Or.inr hy)
        simp [this]
      have hsortasc : (x0 :: x1 :: (takeRunAsc x1 rest).1).Pairwise
          (fun a b => pyLtRow b a = false) :=
        chain'_asc_pairwise _ hrunfin (List.chain'_cons.2 ⟨hd', hch⟩)
      obtain ⟨m1, m2, m3⟩ := binarySortFrom_correct (takeRunAsc x1 rest).2
        (x0 :: x1 :: (takeRunAsc x1 rest).1) hsortasc hrunfin hremfin
      have hunf : pySortAsc (x0 :: x1 :: rest)
          = binarySortFrom (x0 :: x1 :: (takeRunAsc x1 rest).1) (takeRunAsc x1 rest).2 := by
        simp [pySortAsc, hd']
      rw [hunf]
      refine ⟨m1, ?_, ?_⟩
      · intro a b hab heq
        refine m2 a b ?_ heq
        rw [List.cons_append, List.cons_append, happ]
        exact hab
      · intro y hy
        rcases m3 y hy with h | h
        · rcases List.mem_cons.1 h with rfl | h3
          · simp
          rcases List.mem_cons.1 h3 with rfl | h4
          · simp
          · have : y ∈ rest := by
              rw [← happ]
              exact List.mem_append.2 (Or.inl h4)
            simp [this]
        · have : y ∈ rest := by
            rw [← happ]
            exact List.mem_append.2 (Or.inr h)
          simp [this]

/-- The full `reverse=True` sort: on reports whose rows all have finite
seconds, the output is pairwise non-increasing and equal-key pairs keep
their input order. -/
theorem sortRows_correct (rows : List Row) (hfin : ∀ r ∈ rows, ∃ q, r.secs = .fin q) :
    (sortRows rows).Pairwise (fun a b => pyLe b.secs a.secs = true)
    ∧ (∀ a b : Row, [a, b].Sublist rows → a.secs = b.secs → [a, b].Sublist (sortRows rows)) := by
  have hfr : ∀ r ∈ rows.reverse, ∃ q, r.secs = .fin q :=
    fun r hr => hfin r (List.mem_reverse.1 hr)
  obtain ⟨hs, hstab, hmem⟩ := pySortAsc_correct rows.reverse hfr
  constructor
  · show (List.reverse _).Pairwise _
    rw [List.pairwise_reverse]
    refine List.Pairwise.imp_of_mem ?_ hs
    intro a b ha hb hab
    obtain ⟨qa, hqa⟩ := hfr a (hmem a ha)
    obtain ⟨qb, hqb⟩ := hfr b (hmem b hb)
    simp only [pyLtRow, hqa, hqb, pyLt_fin_false_iff] at hab
    simp only [hqa, hqb, pyLe_fin_iff]
    exact hab
  · intro a b hab heq
    have h1 : [b, a].Sublist rows.reverse := by
      show [a, b].reverse.Sublist rows.reverse
      exact List.reverse_sublist.2 hab
    have h2 := hstab b a h1 heq.symm
    have h3 : [b, a].reverse.Sublist (pySortAsc rows.reverse).reverse :=
      List.reverse_sublist.2 h2
    exact h3

theorem sortRows_singleton (r : Row) : sortRows [r] = [r] := rfl

theorem head?_dropWhile_bool {α : Type} (p : α → Bool) :
    ∀ (l : List α) (c : α), (l.dropWhile p).head? = some c → p c = false := by
  intro l
  induction l with
  | nil => intro c h; simp at h
  | cons a t ih =>
    intro c h
    rw [List.dropWhile_cons] at h
    split at h
    · exact ih c h
    · rename_i hpa
      simp only [List.head?_cons, Option.some.injEq] at h
      subst h
      simpa using hpa

theorem dropWhile_eq_self_of_head {α : Type} (p : α → Bool) (l : List α)
    (h : ∀ c, l.head? = some c → p c = false) : l.dropWhile p = l := by
  cases l with
  | nil => rfl
  | cons a t =>
    have := h a rfl
    rw [List.dropWhile_cons]
    simp [this]

theorem stripSlashes_head? (l : List Char) :
    ∀ c, (stripSlashes l).head? = some c → isSlash c = false := by
  intro c h
  rw [stripSlashes, List.head?_reverse] at h
  have hz : (l.dropWhile isSlash).reverse.dropWhile isSlash ≠ [] := by
    intro hz
    rw [hz] at h
    simp at h
  obtain ⟨t, ht⟩ := List.dropWhile_suffix (l := (l.dropWhile isSlash).reverse) isSlash
  have hx : ((l.dropWhile isSlash).reverse).getLast? = some c := by
    rw [← ht, List.getLast?_append_of_ne_nil _ hz]
    exact h
  rw [List.getLast?_reverse] at hx
  exact head?_dropWhile_bool isSlash l c hx

theorem stripSlashes_getLast? (l : List Char) :
    ∀ c, (stripSlashes l).getLast? = some c → isSlash c = false := by
  intro c h
  rw [stripSlashes, List.getLast?_reverse] at h
  exact head?_dropWhile_bool isSlash _ c h

theorem chain'_reverse_noDS {l : List Char} (h : List.Chain' noDS l) :
    List.Chain' noDS l.reverse := by
  rw [List.chain'_reverse]
  refine List.Chain'.imp ?_ h
  intro a b hab hba
  exact hab ⟨hba.2, hba.1⟩

theorem stripSlashes_chain' {l : List Char} (h : List.Chain' noDS l) :
    List.Chain' noDS (stripSlashes l) := by
  unfold stripSlashes
  exact chain'_reverse_noDS
    (((chain'_reverse_noDS (h.suffix (List.dropWhile_suffix isSlash))).suffix
      (List.dropWhile_suffix isSlash)))

theorem collapseSlash_head? : ∀ l : List Char, (collapseSlash l).head? = l.head? := by
  intro l
  induction l using collapseSlash.induct with
  | case1 => rfl
  | case2 c => rfl
  | case3 a b rest hab ih =>
    rw [collapseSlash, if_pos hab, ih]
    simp [hab.1, hab.2]
  | case4 a b rest hab ih =>
    rw [collapseSlash, if_neg hab]
    simp

theorem chain'_collapseSlash : ∀ l : List Char, List.Chain' noDS (collapseSlash l) := by
  intro l
  induction l using collapseSlash.induct with
  | case1 => simp [collapseSlash]
  | case2 c => simp [collapseSlash]
  | case3 a b rest hab ih =>
    rw [collapseSlash, if_pos hab]
    exact ih
  | case4 a b rest hab ih =>
    rw [collapseSlash, if_neg hab]
    rw [List.chain'_cons']
    refine ⟨?_, ih⟩
    intro y hy
    rw [collapseSlash_head? (b :: rest)] at hy
    simp only [List.head?_cons, Option.mem_def, Option.some.injEq] at hy
    subst hy
    exact hab

theorem collapseSlash_of_chain' : ∀ l : List Char, List.Chain' noDS l → collapseSlash l = l := by
  intro l
  induction l using collapseSlash.induct with
  | case1 => intro _; rfl
  | case2 c => intro _; rfl
  | case3 a b rest hab ih =>
    intro hc
    exact absurd hab (List.chain'_cons.1 hc).1
  | case4 a b rest hab ih =>
    intro hc
    rw [collapseSlash, if_neg hab, ih (List.chain'_cons.1 hc).2]

theorem removeGamesStarAux_of_not_contains :
    ∀ (fuel : ℕ) (l : List Char), containsSub gamesPat l = false →
      removeGamesStarAux fuel l = l := by
  intro fuel
  induction fuel with
  | zero => intro l _; cases l <;> rfl
  | succ f ih =>
    intro l h
    cases l with
    | nil => rfl
    | cons c rest =>
      rw [containsSub] at h
      simp only [Bool.or_eq_false_iff] at h
      rw [removeGamesStarAux, if_neg (by simp [h.1]), ih rest h.2]

theorem removeGamesStar_of_not_contains (l : List Char)
    (h : containsSub gamesPat l = false) : removeGamesStar l = l :=
  removeGamesStarAux_of_not_contains _ _ h

theorem stripStartPat_of_head (pat l : List Char) (hp : pat.head? = some slashC)
    (hl : ∀ c, l.head? = some c → c ≠ slashC) : stripStartPat pat l = l := by
  unfold stripStartPat
  cases pat with
  | nil => simp at hp
  | cons p ps =>
    simp only [List.head?_cons, Option.some.injEq] at hp
    subst hp
    cases l with
    | nil =>
      have : startsWithL (slashC :: ps) ([] : List Char) = false := rfl
      simp [this]
    | cons c cs =>
      have hc := hl c rfl
      have hsw : startsWithL (slashC :: ps) (c :: cs) = false := by
        rw [startsWithL, if_neg (fun he => hc he.symm)]
      simp [hsw]

theorem stripIdxSuffix_of_not (l : List Char) (h : idxMatches l = false) :
    stripIdxSuffix l = l := by
  unfold idxMatches at h
  simp only [Bool.or_eq_false_iff] at h
  unfold stripIdxSuffix
  simp [h.1, h.2]

theorem stripSlashes_eq_self (l : List Char)
    (hh : ∀ c, l.head? = some c → c ≠ slashC)
    (hl : ∀ c, l.getLast? = some c → c ≠ slashC) : stripSlashes l = l := by
  unfold stripSlashes
  have h1 : l.dropWhile isSlash = l :=
    dropWhile_eq_self_of_head isSlash l (fun c hc => by
      have := hh c hc
      simp [isSlash, this])
  rw [h1]
  have h2 : l.reverse.dropWhile isSlash = l.reverse :=
    dropWhile_eq_self_of_head isSlash l.reverse (fun c hc => by
      rw [List.head?_reverse] at hc
      have := hl c hc
      simp [isSlash, this])
  rw [h2, List.reverse_reverse]

theorem clean_path_shape (p : String) :
    List.Chain' noDS (clean_path p).toList
    ∧ (∀ c, (clean_path p).toList.head? = some c → c ≠ slashC)
    ∧ (∀ c, (clean_path p).toList.getLast? = some c → c ≠ slashC) := by
  simp only [clean_path]
  split
  · refine ⟨by simp, ?_, ?_⟩ <;> intro c hc <;> simp at hc
  · refine ⟨?_, ?_, ?_⟩
    · exact stripSlashes_chain' (chain'_collapseSlash _)
    · intro c hc
      have h2 := stripSlashes_head? (collapseSlash _) c hc
      intro he
      rw [he] at h2
      simp [isSlash] at h2
    · intro c hc
      have h2 := stripSlashes_getLast? (collapseSlash _) c hc
      intro he
      rw [he] at h2
      simp [isSlash] at h2

theorem clean_path_fixed (q : String)
    (h1 : slotSearch q.toList = false)
    (h2 : containsSub gamesPat q.toList = false)
    (h3 : idxMatches q.toList = false)
    (hh : ∀ c, q.toList.head? = some c → c ≠ slashC)
    (hl : ∀ c, q.toList.getLast? = some c → c ≠ slashC)
    (hc : List.Chain' noDS q.toList) :
    clean_path q = q := by
  simp only [clean_path, h1, Bool.false_eq_true, if_false]
  rw [stripStartPat_of_head asiaPat q.toList rfl hh]
  rw [stripStartPat_of_head synStarPat q.toList rfl hh]
  rw [removeGamesStar_of_not_contains q.toList h2]
  rw [stripIdxSuffix_of_not q.toList h3]
  rw [collapseSlash_of_chain' q.toList hc]
  rw [stripSlashes_eq_self q.toList hh hl]
  exact string_mk_toList q

theorem startsWithL_self_append : ∀ (p l : List Char), startsWithL p (p ++ l) = true := by
  intro p
  induction p with
  | nil => intro l; rfl
  | cons a ps ih =>
    intro l
    rw [List.cons_append, startsWithL, if_pos rfl]
    exact ih l

theorem takeWhile_all_stop (p : Char → Bool) :
    ∀ (t l : List Char), (∀ c ∈ t, p c = true) → (∀ c, l.head? = some c → p c = false) →
      (t ++ l).takeWhile p = t := by
  intro t
  induction t with
  | nil =>
    intro l _ hl
    cases l with
    | nil => rfl
    | cons c cs =>
      simp only [List.nil_append, List.takeWhile_cons, hl c rfl]
      simp
  | cons a t' ih =>
    intro l ht hl
    have hpa : p a = true := ht a (by simp)
    simp only [List.cons_append, List.takeWhile_cons, hpa, if_true]
    rw [ih l (fun c hc => ht c (by simp [hc])) hl]

/-- The slot-games matcher fires at its own decomposition point. -/
theorem slotMatchAt_decomp (t : List Char) (u : Char) (rest : List Char)
    (ht : t ≠ []) (hta : ∀ c ∈ t, notSlash c = true) (hu : notSlash u = true) :
    slotMatchAt (synPat ++ (t ++ (slotsPat ++ u :: rest))) = true := by
  have hstop : ∀ c : Char, (slotsPat ++ u :: rest).head? = some c → notSlash c = false := by
    intro c hc
    have : c = slashC := by
      have hs : (slotsPat ++ u :: rest).head? = some slashC := rfl
      rw [hs] at hc
      exact (Option.some.injEq _ _ ▸ hc).symm
    simp [this, notSlash]
  have hdrop7 : (synPat ++ (t ++ (slotsPat ++ u :: rest))).drop 7 = t ++ (slotsPat ++ u :: rest) :=
    List.drop_left synPat _
  have htok : (t ++ (slotsPat ++ u :: rest)).takeWhile notSlash = t :=
    takeWhile_all_stop notSlash t _ hta hstop
  have hdropTok : (t ++ (slotsPat ++ u :: rest)).drop t.length = slotsPat ++ u :: rest :=
    List.drop_left t _
  have hdrop13 : (slotsPat ++ u :: rest).drop 13 = u :: rest :=
    List.drop_left slotsPat _
  simp only [slotMatchAt, if_pos (startsWithL_self_append synPat _), hdrop7, htok]
  rw [if_neg (by simp [List.isEmpty_iff, ht])]
  rw [hdropTok, if_pos (startsWithL_self_append slotsPat _), hdrop13]
  exact hu

theorem slotSearch_append_right : ∀ (a l : List Char), slotSearch l = true → slotSearch (a ++ l) = true := by
  intro a
  induction a with
  | nil => intro l h; simpa using h
  | cons x xs ih =>
    intro l h
    rw [List.cons_append, slotSearch, ih l h]
    simp

/-! ### Claim theorems -/

/-- Claim C1, counterexample: a record of exactly 5.00 seconds is emitted as
a WARN row (the warning glyph), whereas the claimed classification assigns
exactly 5.00 the severity NONE, whose glyph is empty — so the code does not
implement the claimed three-way classification at the lower boundary. -/
theorem c1_counterexample :
    rowsOf [sampleRec "plinko" 5000] = .ok [⟨"plinko", .fin 5, "5.00 sec", warnEmoji⟩]
    ∧ specSeverity (.fin 5) = Severity.NONE
    ∧ emojiOfSeverity Severity.NONE ≠ warnEmoji := by
  refine ⟨by with_unfolding_all rfl, by with_unfolding_all rfl, by decide⟩

/-- Claim C1 (amended): the severity of every emitted row is a pure function
of its seconds value, with the single strict boundary at 6.0: seconds
comparing strictly greater than 6.0 is CRITICAL, otherwise WARN (NaN seconds
compare false and render WARN).  Exactly 6.00 is WARN (not CRITICAL), as
claimed; but exactly 5.00, when emitted, is WARN — not NONE as claimed.
Every emitted row survived the `< 5.0` skip, i.e. its seconds do not compare
below 5.0, so NONE is never assigned to an emitted row. -/
theorem c1_severity_of_emitted_rows :
    ∀ (d : List JVal) (rows : List Row), rowsOf d = .ok rows → ∀ r ∈ rows,
      (r.emoji = emojiOfSeverity (codeSeverity r.secs) ∧ pyLt r.secs (.fin 5) = false)
      ∧ codeSeverity (.fin 6) = .WARN ∧ codeSeverity (.fin (601 / 100)) = .CRITICAL
      ∧ codeSeverity (.fin 5) = .WARN ∧ codeSeverity .nan = .WARN := by
  intro d rows h r hr
  obtain ⟨item, hb⟩ := mem_rowsOf h hr
  obtain ⟨h5, he⟩ := buildRow_ok_some hb
  refine ⟨⟨?_, h5⟩, ?_, ?_, ?_, ?_⟩
  · cases h6 : pyLt (.fin 6) r.secs <;> simp [codeSeverity, emojiOfSeverity, h6, he]
  · have : pyLt (.fin 6) (.fin 6) = false := pyLt_fin_false_iff.2 (le_refl _)
    simp [codeSeverity, this]
  · have : pyLt (.fin 6) (.fin (601 / 100)) = true := pyLt_fin_iff.2 (by norm_num)
    simp [codeSeverity, this]
  · have : pyLt (.fin 6) (.fin 5) = false := pyLt_fin_false_iff.2 (by norm_num)
    simp [codeSeverity, this]
  · simp [codeSeverity, pyLt]

/-- Witness for the amended C1 theorem at a concrete 5.00-second record. -/
theorem c1_witness :
    ((⟨"plinko", .fin 5, "5.00 sec", warnEmoji⟩ : Row).emoji
        = emojiOfSeverity (codeSeverity (⟨"plinko", .fin 5, "5.00 sec", warnEmoji⟩ : Row).secs)
      ∧ pyLt (⟨"plinko", .fin 5, "5.00 sec", warnEmoji⟩ : Row).secs (.fin 5) = false)
    ∧ codeSeverity (.fin 6) = .WARN ∧ codeSeverity (.fin (601 / 100)) = .CRITICAL
    ∧ codeSeverity (.fin 5) = .WARN ∧ codeSeverity .nan = .WARN :=
  c1_severity_of_emitted_rows [sampleRec "plinko" 5000]
    [⟨"plinko", .fin 5, "5.00 sec", warnEmoji⟩]
    (by with_unfolding_all rfl) _ (List.mem_singleton.2 rfl)

/-- Claim C2, counterexample: a report whose rendered row content exceeds a
block budget of 1 character still yields a single outbound block — the
renderer performs no chunking at all, so it never produces two blocks. -/
theorem c2_counterexample :
    1 < rowLinesTotal c2data ∧ ¬ 2 ≤ blocksCount "AWC7" c2data := by
  have hr : rowsOf c2data = .ok [⟨"plinko", .fin 7, "7.00 sec", critEmoji⟩] := by
    with_unfolding_all rfl
  have hs := sortRows_singleton (⟨"plinko", .fin 7, "7.00 sec", critEmoji⟩ : Row)
  have hf : format_monitor_lines c2data
      = .ok (renderLines [⟨"plinko", .fin 7, "7.00 sec", critEmoji⟩]) := by
    simp only [format_monitor_lines, hr, hs]
    rfl
  constructor
  · simp only [rowLinesTotal, rowLines, hr, hs]
    decide
  · simp only [blocksCount, render_blocks, hf]
    simp

/-- Claim C2 (amended): the renderer always emits exactly one outbound block,
consisting of the fixed header lines, every table line in report order (each
sanitized and wrapped in backticks), and the trailing divider; nothing is
dropped, but no chunking by any character budget takes place. -/
theorem c2_single_block_renderer :
    ∀ (name : String) (d : List JVal) (lines : List String),
      format_monitor_lines d = .ok lines →
      render_blocks name d =
        .ok [String.intercalate "\n"
          (headerLines name ++ lines.map wrapLine ++ ["`" ++ dividerStr ++ "`"])] := by
  intro name d lines h
  simp only [render_blocks, h]
  rfl

/-- Witness for the amended C2 theorem on the empty report. -/
theorem c2_witness :
    render_blocks "AWC7" [] =
      .ok [String.intercalate "\n"
        (headerLines "AWC7" ++ [noDataLine].map wrapLine ++ ["`" ++ dividerStr ++ "`"])] :=
  c2_single_block_renderer "AWC7" [] [noDataLine] rfl

/-- Claim C3, counterexample: on the well-formed JSON value `42` the
extraction step fails (Python raises `TypeError` in `"data" not in j`)
instead of returning the empty sequence. -/
theorem c3_counterexample : (extract_records (JVal.num (.fin 42))).isOk = false := rfl

/-- Claim C3 (amended): on every mapping input — the only shape the upstream
API produces — extraction never fails; an absent `data` field, or a `data`
mapping none of whose values is a sequence, degrades to the empty record
sequence.  (Top-level scalars, and lists or strings containing `"data"`, do
raise, which the per-monitor handler then catches.) -/
theorem c3_extraction_total_on_mappings :
    ∀ m : List (String × JVal),
      (extract_records (.obj m)).isOk = true
      ∧ (jLookup "data" m = none → extract_records (.obj m) = .ok [])
      ∧ (∀ dm, jLookup "data" m = some (.obj dm) →
          (∀ v ∈ dm.map Prod.snd, isArr v = false) → extract_records (.obj m) = .ok []) := by
  intro m
  refine ⟨?_, ?_, ?_⟩
  · rw [extract_obj_eq_spec]
    rfl
  · intro h
    rw [extract_obj_eq_spec]
    simp [spec_resolve, h]
  · intro dm hdm hall
    rw [extract_obj_eq_spec]
    simp only [spec_resolve, hdm]
    have hfind : (dm.map Prod.snd).find? isArr = none :=
      List.find?_eq_none.2 (fun v hv => by simp [hall v hv])
    cases hl : jLookup "list" dm with
    | none => simp [hfind]
    | some v =>
      have hv := hall v (jLookup_mem hl)
      cases v with
      | arr xs => simp [isArr] at hv
      | null => simp [hfind]
      | bool b => simp [hfind]
      | num q => simp [hfind]
      | str s => simp [hfind]
      | obj m2 => simp [hfind]

/-- Witness for the amended C3 theorem: the empty mapping has no `data`
field and extracts to no records. -/
theorem c3_witness : extract_records (.obj []) = .ok [] :=
  (c3_extraction_total_on_mappings []).2.1 rfl

/-- Claim C4: on every mapping input the resolver returns the `data` field
itself when it is a sequence; the `list` entry of a `data` mapping when that
is a sequence, else the first sequence value of that mapping in its natural
key order, else the empty sequence; and the empty sequence when `data` is
absent — i.e. the code resolver coincides with the resolver the spec
describes. -/
theorem c4_shape_resolver :
    ∀ m : List (String × JVal), extract_records (.obj m) = .ok (spec_resolve m) :=
  extract_obj_eq_spec

/-- Claim C5, counterexample: normalization is not idempotent.  Collapsing
the doubled slashes of `a//games//*//b` manufactures a fresh `/games/*/`
occurrence, so the first pass returns `a/games/*/b` — which passes the
caller's post-filter — while a second pass strips it down to `ab`. -/
theorem c5_counterexample :
    postFilterOK (clean_path "a//games//*//b") = true
    ∧ clean_path (clean_path "a//games//*//b") ≠ clean_path "a//games//*//b" := by
  constructor <;> decide

/-- Claim C5 (amended): normalization is idempotent on every input whose
first normalization leaves no freshly formed removable pattern: when
`clean_path p` contains no slot-games match, no `/games/*/` occurrence and no
`/*/index.html` tail (in either of the two positions the anchored pattern can
match), a second application returns it unchanged. -/
theorem c5_normalize_idempotent_when_stable (p : String)
    (h1 : slotSearch (clean_path p).toList = false)
    (h2 : containsSub gamesPat (clean_path p).toList = false)
    (h3 : idxMatches (clean_path p).toList = false) :
    clean_path (clean_path p) = clean_path p := by
  obtain ⟨hc, hh, hl⟩ := clean_path_shape p
  exact clean_path_fixed _ h1 h2 h3 hh hl hc

/-- Witness for the amended C5 theorem on a stable path. -/
theorem c5_witness : clean_path (clean_path "alpha/beta") = clean_path "alpha/beta" :=
  c5_normalize_idempotent_when_stable "alpha/beta" (by decide) (by decide) (by decide)

/-- Claim C6: any raw path containing a segment
`/syn33/<token>/slots/games/<leaf>` — with arbitrary material before and
after, any non-empty slash-free token, and a leaf starting with any
non-slash character — normalizes to the empty string, the exclusion
signal, unconditionally. -/
theorem c6_slot_games_excluded (a t : List Char) (u : Char) (rest : List Char)
    (ht : t ≠ []) (hta : ∀ c ∈ t, notSlash c = true) (hu : notSlash u = true) :
    clean_path (String.mk (a ++ (synPat ++ (t ++ (slotsPat ++ u :: rest))))) = "" := by
  have hm : slotMatchAt (synPat ++ (t ++ (slotsPat ++ u :: rest))) = true :=
    slotMatchAt_decomp t u rest ht hta hu
  have hsearch : slotSearch (a ++ (synPat ++ (t ++ (slotsPat ++ u :: rest)))) = true := by
    refine slotSearch_append_right a _ ?_
    rw [show synPat ++ (t ++ (slotsPat ++ u :: rest))
        = slashC :: ("syn33/".toList ++ (t ++ (slotsPat ++ u :: rest))) from rfl]
    rw [slotSearch]
    rw [show slashC :: ("syn33/".toList ++ (t ++ (slotsPat ++ u :: rest)))
        = synPat ++ (t ++ (slotsPat ++ u :: rest)) from rfl, hm]
    simp
  simp [clean_path, hsearch]

/-- Witness for C6 at a concrete decomposition. -/
theorem c6_witness :
    clean_path (String.mk (['a'] ++ (synPat ++ (['x'] ++ (slotsPat ++ 'y' :: []))))) = "" :=
  c6_slot_games_excluded ['a'] ['x'] 'y' [] (by decide) (by decide) (by decide)

/-- Claim C7, counterexample: a report containing a NaN row is not sorted
non-increasing.  `float("nan")` succeeds and `nan < 5.0` is false, so the
NaN record is emitted; every key comparison against NaN is false, so
CPython's run detection accepts `[8.0, nan, 7.0]` (the reversed input) as an
ascending run and the reversed result keeps the 7.0-row before the 8.0-row —
the output violates non-increasing order even between its real-valued rows. -/
theorem c7_counterexample :
    rowsOf [sampleRec "a7" 7000, sampleRecStr "anan" "nan", sampleRec "a8" 8000]
      = .ok [⟨"a7", .fin 7, "7.00 sec", critEmoji⟩, ⟨"anan", .nan, "nan sec", warnEmoji⟩,
             ⟨"a8", .fin 8, "8.00 sec", critEmoji⟩]
    ∧ sortRows [⟨"a7", .fin 7, "7.00 sec", critEmoji⟩, ⟨"anan", .nan, "nan sec", warnEmoji⟩,
        ⟨"a8", .fin 8, "8.00 sec", critEmoji⟩]
      = [⟨"a7", .fin 7, "7.00 sec", critEmoji⟩, ⟨"anan", .nan, "nan sec", warnEmoji⟩,
         ⟨"a8", .fin 8, "8.00 sec", critEmoji⟩]
    ∧ ¬ (sortRows [⟨"a7", .fin 7, "7.00 sec", critEmoji⟩, ⟨"anan", .nan, "nan sec", warnEmoji⟩,
          ⟨"a8", .fin 8, "8.00 sec", critEmoji⟩]).Pairwise
        (fun a b => pyLe b.secs a.secs = true) := by
  refine ⟨by with_unfolding_all rfl, by with_unfolding_all rfl, ?_⟩
  intro h
  rw [show sortRows [⟨"a7", .fin 7, "7.00 sec", critEmoji⟩, ⟨"anan", .nan, "nan sec", warnEmoji⟩,
      ⟨"a8", .fin 8, "8.00 sec", critEmoji⟩]
    = [⟨"a7", .fin 7, "7.00 sec", critEmoji⟩, ⟨"anan", .nan, "nan sec", warnEmoji⟩,
       ⟨"a8", .fin 8, "8.00 sec", critEmoji⟩] from by with_unfolding_all rfl] at h
  have h87 := (List.pairwise_cons.1 h).1 ⟨"a8", .fin 8, "8.00 sec", critEmoji⟩ (by simp)
  rw [pyLe_fin_iff] at h87
  norm_num at h87

/-- Claim C7 (amended): on every report whose rows all carry finite (non-NaN)
seconds — every record set without NaN response times — the built report's
rows are sorted by seconds in non-increasing order, and the sort is stable:
rows in input order with equal seconds keep that order.  With a NaN row the
sort's comparisons are all false and the output need not be ordered. -/
theorem c7_sorted_stable_on_finite :
    ∀ (d : List JVal) (rows : List Row), rowsOf d = .ok rows →
      (∀ r ∈ rows, isFin r.secs = true) →
      (sortRows rows).Pairwise (fun a b => pyLe b.secs a.secs = true)
      ∧ (∀ a b : Row, [a, b].Sublist rows → a.secs = b.secs →
          [a, b].Sublist (sortRows rows)) := by
  intro d rows _ hfin
  refine sortRows_correct rows ?_
  intro r hr
  have hf := hfin r hr
  cases hs : r.secs with
  | fin q => exact ⟨q, rfl⟩
  | nan => rw [hs] at hf; simp [isFin] at hf
  | inf => rw [hs] at hf; simp [isFin] at hf
  | ninf => rw [hs] at hf; simp [isFin] at hf

/-- Witness for the amended C7 theorem on a two-record report with equal
finite seconds. -/
theorem c7_witness :
    (sortRows [⟨"alpha", .fin 7, "7.00 sec", critEmoji⟩,
        ⟨"beta", .fin 7, "7.00 sec", critEmoji⟩]).Pairwise
      (fun a b => pyLe b.secs a.secs = true)
    ∧ (∀ a b : Row,
        [a, b].Sublist [⟨"alpha", .fin 7, "7.00 sec", critEmoji⟩,
          ⟨"beta", .fin 7, "7.00 sec", critEmoji⟩] →
        a.secs = b.secs →
        [a, b].Sublist (sortRows [⟨"alpha", .fin 7, "7.00 sec", critEmoji⟩,
          ⟨"beta", .fin 7, "7.00 sec", critEmoji⟩])) :=
  c7_sorted_stable_on_finite [sampleRec "alpha" 7000, sampleRec "beta" 7000]
    [⟨"alpha", .fin 7, "7.00 sec", critEmoji⟩, ⟨"beta", .fin 7, "7.00 sec", critEmoji⟩]
    (by with_unfolding_all rfl)
    (by
      intro r hr
      rcases List.mem_cons.1 hr with rfl | hr2
      · rfl
      · rcases List.mem_cons.1 hr2 with rfl | h3
        · rfl
        · simp at h3)

/-- Claim C8, counterexample: a row containing a backtick is not displayed
verbatim — the sanitizer rewrites the backtick to a single quote before
wrapping, so the displayed content differs from the original row. -/
theorem c8_counterexample :
    displayCodeSpan (sanitize_backticks "a`b") ≠ some "a`b" := by decide

/-- Claim C8 (amended): the renderer neutralizes backticks — no sanitized row
retains one, so the wrapping code span is never terminated early — and a row
containing neither backtick nor backslash displays verbatim.  Backslashes are
left unescaped and backticks are altered to quotes, so rows containing either
character are not displayed verbatim. -/
theorem c8_backticks_neutralized :
    ∀ s : String,
      backtickC ∉ (sanitize_backticks s).toList
      ∧ (backtickC ∉ s.toList → backslashC ∉ s.toList →
          displayCodeSpan (sanitize_backticks s) = some s) := by
  intro s
  constructor
  · intro hmem
    have : (sanitize_backticks s).toList = s.toList.map (fun c => if c = backtickC then squoteC else c) := rfl
    rw [this] at hmem
    rcases List.mem_map.1 hmem with ⟨c, _, hfc⟩
    by_cases hc : c = backtickC
    · rw [hc] at hfc
      simp only [if_pos rfl] at hfc
      exact absurd hfc (by decide)
    · rw [if_neg hc] at hfc
      exact hc hfc
  · intro h1 h2
    have hid : s.toList.map (fun c => if c = backtickC then squoteC else c) = s.toList := by
      have hcongr : ∀ c ∈ s.toList,
          (fun c => if c = backtickC then squoteC else c) c = id c := by
        intro c hc
        have : c ≠ backtickC := fun he => h1 (he ▸ hc)
        simp [this]
      rw [List.map_congr_left hcongr, List.map_id]
    have hss : sanitize_backticks s = s := by
      show String.mk (s.toList.map (fun c => if c = backtickC then squoteC else c)) = s
      rw [hid]
      exact string_mk_toList s
    rw [hss]
    have hany : s.toList.any isMd2Sig = false := by
      cases h : s.toList.any isMd2Sig with
      | false => rfl
      | true =>
        obtain ⟨c, hc, hsig⟩ := List.any_eq_true.1 h
        have : c = backtickC ∨ c = backslashC := by
          by_contra hor
          push_neg at hor
          simp [isMd2Sig, hor.1, hor.2] at hsig
        rcases this with he | he
        · exact absurd (he ▸ hc) h1
        · exact absurd (he ▸ hc) h2
    unfold displayCodeSpan
    rw [hany]
    simp

/-- Witness for the amended C8 theorem on a clean row. -/
theorem c8_witness : displayCodeSpan (sanitize_backticks "abc") = some "abc" :=
  (c8_backticks_neutralized "abc").2 (by decide) (by decide)

/-- Claim C9: for every monitor configuration and every behavior of the fetch
and delivery collaborators, the loop produces exactly one outcome per monitor
in configuration order (so one monitor's failure never aborts the rest and
the run always completes); a monitor whose pipeline fails yields exactly one
best-effort error-notification attempt, whose own failure is swallowed; a
monitor whose pipeline succeeds yields its report event. -/
theorem c9_isolation :
    ∀ (o : Oracle) (ms : List (String × String)),
      (mainLoop o ms).map evName = ms.map Prod.fst
      ∧ (∀ (i : ℕ) (p : String × String) (e : String), ms[i]? = some p →
          processMonitor o p.1 p.2 = .error e →
          (mainLoop o ms)[i]? = some (.errNote p.1 (tgAttempt o p.1 e)))
      ∧ (∀ (i : ℕ) (p : String × String) (b : Bool), ms[i]? = some p →
          processMonitor o p.1 p.2 = .ok b →
          (mainLoop o ms)[i]? = some (.report p.1 b)) := by
  intro o ms
  refine ⟨?_, ?_, ?_⟩
  · simp only [mainLoop, List.map_map]
    refine List.map_congr_left ?_
    intro p _
    show evName (runMonitor o p) = p.1
    unfold runMonitor
    cases processMonitor o p.1 p.2 <;> rfl
  · intro i p e hi hp
    simp only [mainLoop, List.getElem?_map, hi, Option.map_some']
    unfold runMonitor
    rw [hp]
  · intro i p b hi hp
    simp only [mainLoop, List.getElem?_map, hi, Option.map_some']
    unfold runMonitor
    rw [hp]

/-- Witness for C9 with a failing fetch and a failing transport. -/
theorem c9_witness :
    (mainLoop ⟨fun _ => .error "boom", fun _ => .error "no creds"⟩
        [("AWC7", "509934000004443003")]).map evName
      = [("AWC7", "509934000004443003")].map Prod.fst
    ∧ (mainLoop ⟨fun _ => .error "boom", fun _ => .error "no creds"⟩
        [("AWC7", "509934000004443003")])[0]?
      = some (.errNote "AWC7" false) :=
  ⟨(c9_isolation ⟨fun _ => .error "boom", fun _ => .error "no creds"⟩
      [("AWC7", "509934000004443003")]).1,
   (c9_isolation ⟨fun _ => .error "boom", fun _ => .error "no creds"⟩
      [("AWC7", "509934000004443003")]).2.1 0 ("AWC7", "509934000004443003") "boom" rfl rfl⟩

/-- Claim C10, counterexample: a record whose response time is the string
`"nan"` is emitted — `float("nan")` succeeds and `nan < 5.0` is false, so the
skip does not fire — yet its seconds value is NaN, which is not at least 5.0
(`5.0 <= nan` is false).  The claim's floor conjunct is false of the code. -/
theorem c10_counterexample :
    rowsOf [sampleRecStr "plinko" "nan"]
      = .ok [⟨"plinko", .nan, "nan sec", warnEmoji⟩]
    ∧ pyLe (.fin 5) PyFloat.nan = false := by
  exact ⟨by with_unfolding_all rfl, rfl⟩

/-- Claim C10 (amended): every emitted data row survived the hardcoded skip —
its seconds value does not compare below 5.0 (true both of values ≥ 5.0 and
of NaN, whose comparisons are all false) — and carries either the CRITICAL
or the WARN glyph; an empty severity field is unreachable in row output. -/
theorem c10_no_none_severity :
    ∀ (d : List JVal) (rows : List Row), rowsOf d = .ok rows → ∀ r ∈ rows,
      pyLt r.secs (.fin 5) = false ∧ (r.emoji = critEmoji ∨ r.emoji = warnEmoji) := by
  intro d rows h r hr
  obtain ⟨item, hb⟩ := mem_rowsOf h hr
  obtain ⟨h5, he⟩ := buildRow_ok_some hb
  refine ⟨h5, ?_⟩
  cases h6 : pyLt (.fin 6) r.secs
  · right
    rw [he, h6]
    simp
  · left
    rw [he, h6]
    simp

/-- Witness for the amended C10 theorem at a concrete 7.00-second record. -/
theorem c10_witness :
    pyLt (⟨"plinko", .fin 7, "7.00 sec", critEmoji⟩ : Row).secs (.fin 5) = false
    ∧ ((⟨"plinko", .fin 7, "7.00 sec", critEmoji⟩ : Row).emoji = critEmoji
        ∨ (⟨"plinko", .fin 7, "7.00 sec", critEmoji⟩ : Row).emoji = warnEmoji) :=
  c10_no_none_severity c2data [⟨"plinko", .fin 7, "7.00 sec", critEmoji⟩]
    (by with_unfolding_all rfl) _ (List.mem_singleton.2 rfl)

end RumAlerts
